import Mathlib

/-!
Verification development for the `ldoce` MDict container reader
(`src/mdict/read_mdict.py`).  The Python source is shallowly embedded:
byte strings become `List Nat` (each element a byte value), machine
integers become `Nat`/`Int` with explicit masking where the source masks,
Python exceptions become an explicit `Except PyErr` result, and external
codecs (zlib inflate, LZO inflate) are passed in as capabilities, mirroring
how the source imports them.  Adler-32 and RIPEMD-128 are implemented
concretely (standard algorithms) so that concrete runs evaluate.
-/

set_option autoImplicit false
set_option maxRecDepth 100000

namespace Mdict

/-- Python exceptions that the embedded fragments of `read_mdict.py` can
raise: `assertionError` for failed `assert` statements, `nameError` for
reads of unbound local variables, `structError` for `struct.unpack` on a
buffer of the wrong size, `zlibError`/`lzoError` for decompression
failures, `keyError` for missing dict keys, `valueError` for failed
`int`/`float` parses, and `indexError` for out-of-range list indexing. -/
inductive PyErr where
  | assertionError
  | nameError
  | structError
  | zlibError
  | lzoError
  | keyError
  | valueError
  | indexError
  | unicodeError
  deriving DecidableEq, Repr

/-- Decidable equality for `Except` results, so that concrete runs of
the embedded functions can be checked by `decide`. -/
instance instDecEqExcept {ε α : Type} [DecidableEq ε] [DecidableEq α] :
    DecidableEq (Except ε α) := fun x y =>
  match x, y with
  | .error a, .error b =>
      if h : a = b then .isTrue (congrArg _ h)
      else .isFalse (fun hc => h (Except.error.inj hc))
  | .error _, .ok _ => .isFalse (fun hc => Except.noConfusion hc)
  | .ok _, .error _ => .isFalse (fun hc => Except.noConfusion hc)
  | .ok a, .ok b =>
      if h : a = b then .isTrue (congrArg _ h)
      else .isFalse (fun hc => h (Except.ok.inj hc))

/-- Python slice `bs[a:b]` for byte strings (never raises; clamps). -/
def pySlice (bs : List Nat) (a b : Nat) : List Nat :=
  (bs.drop a).take (b - a)

/-- Big-endian value of a byte list (as read by `struct.unpack(">...")`). -/
def beNat (bs : List Nat) : Nat :=
  bs.foldl (fun acc b => acc * 256 + b) 0

/-- Model of `unpack(NumberFmt.be_uint, s)[0]`: `struct.unpack` demands a
buffer of exactly 4 bytes and raises `struct.error` otherwise. -/
def beU32 (bs : List Nat) : Option Nat :=
  if bs.length = 4 then some (beNat bs) else none

/-- Model of `self._read_number(f)`: read `w` bytes big-endian at `pos`;
a short read makes `unpack` raise `struct.error` (modelled as `none`). -/
def readNumber (w : Nat) (bs : List Nat) (pos : Nat) : Option (Nat × Nat) :=
  let chunk := pySlice bs pos (pos + w)
  if chunk.length = w then some (beNat chunk, pos + w) else none

/-- Standard Adler-32 (the behaviour of `zlib.adler32` on a byte string,
which `read_mdict.py` uses for all block checksums; `zlib` is an external
library, so the standard algorithm is embedded directly). -/
def adler32 (bs : List Nat) : Nat :=
  let st := bs.foldl (fun p b => (((p.1 + b) % 65521), (p.2 + (p.1 + b) % 65521) % 65521)) (1, 0)
  st.2 * 65536 + st.1

/-- External decompression capabilities, mirroring the source's use of the
`zlib` module and the optional `mdict.utils.lzo` module (`lzo is None`
when the import failed).  A `none` result models the library raising. -/
structure Codecs where
  zlibDecompress : List Nat → Option (List Nat)
  lzoDecompress : Nat → List Nat → Option (List Nat)
  lzoAvailable : Bool

/-- Nibble rotation `(b >> 4 | b << 4) & 0xFF` from `_fast_decrypt`. -/
def rotNibbles (b : Nat) : Nat :=
  ((b >>> 4) ||| (b <<< 4)) &&& 0xFF

/-- Loop body of `_fast_decrypt`: walks the data with running index `i`
and `previous` (the original previous byte, initially `0x36`). -/
def fastDecryptAux (key : List Nat) : Nat → Nat → List Nat → List Nat
  | _, _, [] => []
  | i, previous, b :: rest =>
      let t := rotNibbles b ^^^ previous ^^^ (i &&& 0xFF) ^^^ key.getD (i % key.length) 0
      t :: fastDecryptAux key (i + 1) b rest

/-- Model of `_fast_decrypt(data, key)` (src/mdict/read_mdict.py:44-53).
The Python raises `ZeroDivisionError` for an empty key; all statements
proved below assume `key ≠ []`. -/
def fastDecrypt (data key : List Nat) : List Nat :=
  fastDecryptAux key 0 0x36 data

/-- Little-endian 4-byte encoding, the model of `pack(b"<L", n)`. -/
def packLe32 (n : Nat) : List Nat :=
  [n % 256, (n / 256) % 256, (n / 65536) % 256, (n / 16777216) % 256]

/-- Closed form for byte `i` of `_fast_decrypt(data, key)` as the spec
describes it: `rotate_nibbles(data[i]) XOR previous XOR (i AND 0xFF) XOR
key[i mod len(key)]` with `previous = 0x36` at `i = 0` and the original
`data[i-1]` afterwards.  Stated from the claim's words, to be compared
with the embedded `fastDecrypt`. -/
def fastDecryptSpecByte (data key : List Nat) (i : Nat) : Nat :=
  rotNibbles (data.getD i 0) ^^^ (if i = 0 then 0x36 else data.getD (i - 1) 0) ^^^
    (i &&& 0xFF) ^^^ key.getD (i % key.length) 0

/-! ### RIPEMD-128

Modelled from the spec: `read_mdict.py` imports `ripemd128` from
`mdict/utils/ripemd128.py`, which is not included under `src/`.  Spec
§4.1 prescribes "Standard RIPEMD-128; the implementation must match the
reference test vectors", so the standard RIPEMD-128 is embedded here and
checked against the published vectors for `""` and `"abc"` below. -/

/-- Modulus for 32-bit arithmetic. -/
def M32 : Nat := 4294967296

/-- 32-bit left rotation. -/
def rotl32 (x s : Nat) : Nat :=
  (((x % M32) <<< s) % M32) ||| ((x % M32) >>> (32 - s))

/-- RIPEMD round functions, selected by step index `j` (0-63). -/
def rmdF (j x y z : Nat) : Nat :=
  if j < 16 then x ^^^ y ^^^ z
  else if j < 32 then (x &&& y) ||| ((x ^^^ 0xFFFFFFFF) &&& z)
  else if j < 48 then (x ||| (y ^^^ 0xFFFFFFFF)) ^^^ z
  else (x &&& z) ||| (y &&& (z ^^^ 0xFFFFFFFF))

/-- Left-line added constants per step. -/
def rmdK (j : Nat) : Nat :=
  if j < 16 then 0 else if j < 32 then 0x5A827999
  else if j < 48 then 0x6ED9EBA1 else 0x8F1BBCDC

/-- Right-line added constants per step. -/
def rmdKK (j : Nat) : Nat :=
  if j < 16 then 0x50A28BE6 else if j < 32 then 0x5C4DD124
  else if j < 48 then 0x6D703EF3 else 0

/-- Left-line message word selection. -/
def rmdR : List Nat :=
  [0, 1, 2, 3, 4, 5, 6, 7, 8, 9, 10, 11, 12, 13, 14, 15,
   7, 4, 13, 1, 10, 6, 15, 3, 12, 0, 9, 5, 2, 14, 11, 8,
   3, 10, 14, 4, 9, 15, 8, 1, 2, 7, 0, 6, 13, 11, 5, 12,
   1, 9, 11, 10, 0, 8, 12, 4, 13, 3, 7, 15, 14, 5, 6, 2]

/-- Right-line message word selection. -/
def rmdRR : List Nat :=
  [5, 14, 7, 0, 9, 2, 11, 4, 13, 6, 15, 8, 1, 10, 3, 12,
   6, 11, 3, 7, 0, 13, 5, 10, 14, 15, 8, 12, 4, 9, 1, 2,
   15, 5, 1, 3, 7, 14, 6, 9, 11, 8, 12, 2, 10, 0, 4, 13,
   8, 6, 4, 1, 3, 11, 15, 0, 5, 12, 2, 13, 9, 7, 10, 14]

/-- Left-line rotation amounts. -/
def rmdS : List Nat :=
  [11, 14, 15, 12, 5, 8, 7, 9, 11, 13, 14, 15, 6, 7, 9, 8,
   7, 6, 8, 13, 11, 9, 7, 15, 7, 12, 15, 9, 11, 7, 13, 12,
   11, 13, 6, 7, 14, 9, 13, 15, 14, 8, 13, 6, 5, 12, 7, 5,
   11, 12, 14, 15, 14, 15, 9, 8, 9, 14, 5, 6, 8, 6, 5, 12]

/-- Right-line rotation amounts. -/
def rmdSS : List Nat :=
  [8, 9, 9, 11, 13, 15, 15, 5, 7, 7, 8, 11, 14, 14, 12, 6,
   9, 13, 15, 7, 12, 8, 9, 11, 7, 7, 12, 7, 6, 15, 13, 11,
   9, 7, 15, 11, 8, 6, 6, 14, 12, 13, 5, 14, 13, 13, 7, 5,
   15, 5, 8, 11, 14, 14, 6, 14, 6, 9, 12, 9, 12, 5, 15, 8]

/-- One 64-step RIPEMD line over message words `X`. -/
def rmdLine (X : List Nat) (f : Nat → Nat → Nat → Nat → Nat) (k : Nat → Nat)
    (r s : List Nat) (init : Nat × Nat × Nat × Nat) : Nat × Nat × Nat × Nat :=
  (List.range 64).foldl
    (fun st j =>
      let t := rotl32 ((st.1 + f j st.2.1 st.2.2.1 st.2.2.2 + X.getD (r.getD j 0) 0 + k j) % M32)
        (s.getD j 0)
      (st.2.2.2, t, st.2.1, st.2.2.1))
    init

/-- RIPEMD-128 compression of one 16-word block. -/
def rmdCompress (h : Nat × Nat × Nat × Nat) (X : List Nat) : Nat × Nat × Nat × Nat :=
  let L := rmdLine X rmdF rmdK rmdR rmdS h
  let R := rmdLine X (fun j => rmdF (63 - j)) rmdKK rmdRR rmdSS h
  ((h.2.1 + L.2.2.1 + R.2.2.2) % M32,
   (h.2.2.1 + L.2.2.2 + R.1) % M32,
   (h.2.2.2 + L.1 + R.2.1) % M32,
   (h.1 + L.2.1 + R.2.2.1) % M32)

/-- Little-endian words of a byte block. -/
def bytesToWords : List Nat → List Nat
  | b0 :: b1 :: b2 :: b3 :: rest =>
      (b0 + 256 * (b1 + 256 * (b2 + 256 * b3))) :: bytesToWords rest
  | _ => []

/-- Process the padded message 64 bytes at a time (fuel-driven so that it
reduces in the kernel; the fuel is always sufficient). -/
def rmdProcess : Nat → Nat × Nat × Nat × Nat → List Nat → Nat × Nat × Nat × Nat
  | 0, st, _ => st
  | _ + 1, st, [] => st
  | n + 1, st, bs => rmdProcess n (rmdCompress st (bytesToWords (bs.take 64))) (bs.drop 64)

/-- Little-endian 8-byte encoding of the bit length. -/
def le64 (n : Nat) : List Nat :=
  packLe32 (n % M32) ++ packLe32 (n / M32)

/-- RIPEMD-128 digest of a byte string (16 output bytes). -/
def ripemd128 (msg : List Nat) : List Nat :=
  let ml := msg.length
  let padded := msg ++ [0x80] ++ List.replicate ((119 - ml % 64) % 64) 0 ++ le64 (ml * 8)
  let st := rmdProcess padded.length (0x67452301, 0xEFCDAB89, 0x98BADCFE, 0x10325476) padded
  packLe32 st.1 ++ packLe32 st.2.1 ++ packLe32 st.2.2.1 ++ packLe32 st.2.2.2

/-- Model of `_mdx_decrypt(comp_block)` (src/mdict/read_mdict.py:56-58):
derive the `fast_decrypt` key from bytes 4-8 of the block and the
little-endian constant `0x3695`, keep the 8-byte header, decrypt the
rest. -/
def mdxDecrypt (compBlock : List Nat) : List Nat :=
  let key := ripemd128 (pySlice compBlock 4 8 ++ packLe32 0x3695)
  pySlice compBlock 0 8 ++ fastDecrypt (compBlock.drop 8) key

/-! ### Header attribute handling (`MDict._read_header`, lines 239-276)

Python dict keys are compared by value *and* type: the byte-string key
`b"StyleSheet"` is distinct from the text key `"StyleSheet"`.
`_parse_header` produces byte-string keys, while line 265 of the source
looks the stylesheet up under a text key, so that branch never fires.
`PyKey` keeps the distinction so the model is faithful to this. -/

/-- A Python dict key used by `_read_header`: either `bytes` or `str`. -/
inductive PyKey where
  | bytes (b : List Nat)
  | str (s : String)
  deriving DecidableEq, Repr

/-- Lookup in the header tag dict (modelled as an association list built
in insertion order; later assignments win, as in a Python dict). -/
def pyGet (d : List (PyKey × List Nat)) (k : PyKey) : Option (List Nat) :=
  (d.reverse.find? (fun p => decide (p.1 = k))).map Prod.snd

/-- ASCII bytes of a Lean string (used for the literal byte-string keys
and values such as `b"Encoding"`, `b"Yes"`). -/
def strBytes (s : String) : List Nat :=
  s.data.map Char.toNat

/-- Model of `bytes.decode("utf-8")` on the ASCII subset, which covers
every attribute value the claims touch; a non-ASCII byte is modelled as a
decode failure. -/
def decodeUtf8Ascii (bs : List Nat) : Option String :=
  if bs.all (· < 128) then some (String.mk (bs.map Char.ofNat)) else none

/-- Value of an all-digit byte string, `none` when empty or non-digit. -/
def digitsVal (bs : List Nat) : Option Nat :=
  if bs ≠ [] ∧ bs.all (fun b => 48 ≤ b ∧ b ≤ 57) then
    some (bs.foldl (fun a b => a * 10 + (b - 48)) 0)
  else none

/-- Model of Python `int()` on a byte string (optional sign, digits). -/
def pyIntBytes (bs : List Nat) : Option Int :=
  match bs with
  | 45 :: rest => (digitsVal rest).map (fun n => -(n : Int))
  | _ => (digitsVal bs).map (fun n => (n : Int))

/-- Integer part of `float(version_bytes)`, enough to decide the
`self._version < 2.0` test for well-formed `X` or `X.Y` version strings;
a malformed string is a `float()` failure. -/
def floatIntPart (bs : List Nat) : Option Nat :=
  match bs.splitOn 46 with
  | [ip] => digitsVal ip
  | [ip, fp] =>
      match digitsVal ip, digitsVal fp with
      | some n, some _ => some n
      | _, _ => none
  | _ => none

/-- Model of `bytes.splitlines()` for LF-separated text (the only shape
the stylesheet loop would ever see). -/
def splitLines (bs : List Nat) : List (List Nat) :=
  bs.splitOn 10

/-- The stylesheet triple loop (lines 266-268): `range(0, len(lines), 3)`
with unchecked `lines[i + 1]` / `lines[i + 2]` accesses, which raise
`IndexError` when the line count is not a multiple of three. -/
def styTriples : List (List Nat) → Except PyErr (List (List Nat × List Nat × List Nat))
  | [] => .ok []
  | [_] => .error .indexError
  | [_, _] => .error .indexError
  | x :: y :: z :: rest => (styTriples rest).map (fun l => (x, y, z) :: l)

/-- Encoding resolution (lines 239-245): only when the caller passed no
encoding (`self._encoding` empty) is the header consulted — by direct
indexing, so a missing `Encoding` attribute raises `KeyError`; `GBK` and
`GB2312` are normalized to `GB18030`. -/
def resolveEncoding (tags : List (PyKey × List Nat)) (enc0 : String) : Except PyErr String :=
  if enc0 = "" then
    match pyGet tags (.bytes (strBytes "Encoding")) with
    | none => .error .keyError
    | some v =>
        match decodeUtf8Ascii v with
        | none => .error .unicodeError
        | some e => .ok (if e = "GBK" ∨ e = "GB2312" then "GB18030" else e)
  else .ok enc0

/-- Title/Description handling (lines 247-255): decode when present,
empty string otherwise. -/
def decodedOrEmpty (tags : List (PyKey × List Nat)) (name : String) : Except PyErr String :=
  match pyGet tags (.bytes (strBytes name)) with
  | some v =>
      match decodeUtf8Ascii v with
      | some s => .ok s
      | none => .error .unicodeError
  | none => .ok ""

/-- Encrypted flag (lines 257-262). -/
def encryptVal (tags : List (PyKey × List Nat)) : Except PyErr Int :=
  match pyGet tags (.bytes (strBytes "Encrypted")) with
  | none => .ok 0
  | some v =>
      if v = strBytes "No" then .ok 0
      else if v = strBytes "Yes" then .ok 1
      else
        match pyIntBytes v with
        | some n => .ok n
        | none => .error .valueError

/-- Stylesheet construction (lines 264-268).  The lookup uses the text
key `"StyleSheet"` exactly as the source does. -/
def stylesheetVal (tags : List (PyKey × List Nat)) :
    Except PyErr (List (List Nat × List Nat × List Nat)) :=
  match pyGet tags (.str "StyleSheet") with
  | none => .ok []
  | some v => if v = [] then .ok [] else styTriples (splitLines v)

/-- Version and number width (lines 270-276). -/
def widthVal (tags : List (PyKey × List Nat)) : Except PyErr Nat :=
  match pyGet tags (.bytes (strBytes "GeneratedByEngineVersion")) with
  | none => .error .keyError
  | some v =>
      match floatIntPart v with
      | none => .error .valueError
      | some ip => .ok (if ip < 2 then 4 else 8)

/-- Parsed header state produced by the attribute section of
`_read_header`. -/
structure HeaderInfo where
  encoding : String
  title : String
  description : String
  encrypt : Int
  stylesheet : List (List Nat × List Nat × List Nat)
  numberWidth : Nat
  deriving DecidableEq, Repr, Inhabited

/-- Model of the attribute-processing part of `MDict._read_header`
(lines 239-276), starting from the parsed tag dict and the constructor
encoding `self._encoding` (already upper-cased by `__init__`). -/
def readHeaderTags (tags : List (PyKey × List Nat)) (enc0 : String) : Except PyErr HeaderInfo := do
  let enc ← resolveEncoding tags enc0
  let title ← decodedOrEmpty tags "Title"
  let desc ← decodedOrEmpty tags "Description"
  let encr ← encryptVal tags
  let sty ← stylesheetVal tags
  let w ← widthVal tags
  return { encoding := enc, title := title, description := desc, encrypt := encr,
           stylesheet := sty, numberWidth := w }

/-! ### Key-block decoding (`MDict._decode_key_block`, lines 168-196)

The inner `_split_key_block` step transcodes key text through Python's
codec machinery (`decode(self._encoding, errors="ignore")`), which is
external; it is passed in as an opaque `split` function, since no claim
depends on its internals. -/

/-- Outcome of the block-type dispatch inside `_decode_key_block`:
continue with the (possibly stale) `key_block` variable, break out of the
loop, or raise. -/
inductive KBStep where
  | proceed (kb : Option (List Nat))
  | breakLoop
  | fail (e : PyErr)
  deriving DecidableEq, Repr

/-- Block-type dispatch of `_decode_key_block` (lines 178-191).  Note:
there is no `else` branch in the source, so an unrecognized tag leaves
the `key_block` variable untouched (stale from the previous iteration,
or unbound on the first). -/
def keyBlockDispatch (C : Codecs) (tag body : List Nat) (dsize : Nat)
    (keyBlockVar : Option (List Nat)) : KBStep :=
  if tag = [0, 0, 0, 0] then .proceed (some body)
  else if tag = [1, 0, 0, 0] then
    if C.lzoAvailable then
      match C.lzoDecompress dsize body with
      | some kb => .proceed (some kb)
      | none => .fail .lzoError
    else .breakLoop
  else if tag = [2, 0, 0, 0] then
    match C.zlibDecompress body with
    | some kb => .proceed (some kb)
    | none => .fail .zlibError
  else .proceed keyBlockVar

/-- Loop of `_decode_key_block` over `key_block_info_list`, carrying the
byte offset `i`, the `key_block` local variable and the accumulated
`key_list`. -/
def decodeKeyBlockAux (C : Codecs) (split : List Nat → List (Nat × String)) (kbc : List Nat) :
    List (Nat × Nat) → Nat → Option (List Nat) → List (Nat × String) →
    Except PyErr (List (Nat × String))
  | [], _, _, acc => .ok acc
  | (csize, dsize) :: rest, i, keyBlockVar, acc =>
      match beU32 (pySlice kbc (i + 4) (i + 8)) with
      | none => .error .structError
      | some adlerVal =>
          match keyBlockDispatch C (pySlice kbc i (i + 4)) (pySlice kbc (i + 8) (i + csize))
              dsize keyBlockVar with
          | .fail e => .error e
          | .breakLoop => .ok acc
          | .proceed none => .error .nameError
          | .proceed (some kb) =>
              if adlerVal = adler32 kb &&& 0xFFFFFFFF then
                decodeKeyBlockAux C split kbc rest (i + csize) (some kb) (acc ++ split kb)
              else .error .assertionError

/-- Model of `MDict._decode_key_block(key_block_compressed, key_block_info_list)`. -/
def decodeKeyBlock (C : Codecs) (split : List Nat → List (Nat × String)) (kbc : List Nat)
    (infos : List (Nat × Nat)) : Except PyErr (List (Nat × String)) :=
  decodeKeyBlockAux C split kbc infos 0 none []

/-! ### Record-section index construction (`MDD.get_index` lines 371-450,
`MDX.get_index` lines 458-543)

The two methods are embedded separately, mirroring the duplicated source;
positions are relative to `self._record_block_offset`. -/

/-- One entry of the emitted `index_dict_list`. -/
structure IndexRecord where
  filePos : Nat
  compressedSize : Nat
  decompressedSize : Nat
  recordBlockType : Nat
  recordStart : Nat
  keyText : String
  offset : Nat
  recordEnd : Nat
  deriving DecidableEq, Repr, Inhabited

/-- Parsed archive state entering `get_index`: the key list produced by
`_read_keys` (each entry `(record_offset, key_text)`, with the text
already UTF-8 by construction and therefore modelled as `String`), the
entry count, the number width from the header, the file bytes from
`_record_block_offset` on, and the metadata fields used by `MDX`. -/
structure MState where
  keyList : List (Nat × String)
  numEntries : Nat
  numberWidth : Nat
  recordBytes : List Nat
  encoding : String
  stylesheet : List (List Nat × List Nat × List Nat)
  title : String
  description : String
  deriving DecidableEq, Repr, Inhabited

/-- The `meta` object `MDX.get_index` wraps around the record list
(lines 537-541; `json.dumps` of the stylesheet is kept as the stylesheet
data itself, serialization being external). -/
structure MXMeta where
  encoding : String
  stylesheet : List (List Nat × List Nat × List Nat)
  title : String
  description : String
  deriving DecidableEq, Repr, Inhabited

/-- Builds the meta object from the archive state. -/
def metaOf (st : MState) : MXMeta :=
  ⟨st.encoding, st.stylesheet, st.title, st.description⟩

/-- The four counters and the record-block info table read at the top of
both `get_index` methods (lines 376-389 and 463-476, which are
identical). -/
structure RecSection where
  numRecordBlocks : Nat
  numEntries : Nat
  recordBlockInfoSize : Nat
  recordBlockSize : Nat
  infoList : List (Nat × Nat)
  dataPos : Nat
  deriving DecidableEq, Repr

/-- The `for i in range(num_record_blocks)` loop reading
`(compressed_size, decompressed_size)` pairs and accumulating
`size_counter += self._number_width * 2`. -/
def readInfoPairs (w : Nat) (bs : List Nat) :
    Nat → Nat → Nat → Option (List (Nat × Nat) × Nat × Nat)
  | 0, pos, sc => some ([], pos, sc)
  | n + 1, pos, sc =>
      match readNumber w bs pos with
      | none => none
      | some (c, pos1) =>
          match readNumber w bs pos1 with
          | none => none
          | some (d, pos2) =>
              match readInfoPairs w bs n pos2 (sc + w * 2) with
              | none => none
              | some (l, p, s) => some ((c, d) :: l, p, s)

/-- Header part of `get_index`: the four counters, the
`num_entries == self._num_entries` assert, the info pairs, and the
`size_counter == record_block_info_size` assert. -/
def parseRecordSection (st : MState) : Except PyErr RecSection :=
  match readNumber st.numberWidth st.recordBytes 0 with
  | none => .error .structError
  | some (nrb, p1) =>
      match readNumber st.numberWidth st.recordBytes p1 with
      | none => .error .structError
      | some (ne, p2) =>
          if ne = st.numEntries then
            match readNumber st.numberWidth st.recordBytes p2 with
            | none => .error .structError
            | some (rbis, p3) =>
                match readNumber st.numberWidth st.recordBytes p3 with
                | none => .error .structError
                | some (rbs, p4) =>
                    match readInfoPairs st.numberWidth st.recordBytes nrb p4 0 with
                    | none => .error .structError
                    | some (infos, p5, sc) =>
                        if sc = rbis then .ok ⟨nrb, ne, rbis, rbs, infos, p5⟩
                        else .error .assertionError
          else .error .assertionError

/-- Outcome of the record-block type dispatch (lines 400-418 and 487-505,
identical in both methods): continue with updated `_type`/`record_block`
variables, break out (LZO missing), or raise. -/
inductive RBStep where
  | proceed (ty : Option Nat) (rb : Option (List Nat))
  | breakLoop
  | fail (e : PyErr)
  deriving DecidableEq, Repr

/-- Record-block type dispatch.  `_type` is assigned in every recognized
branch; `record_block` only under `check_block`; an unrecognized tag
leaves both variables stale (there is no `else` branch in the source). -/
def recordBlockDispatch (C : Codecs) (cb : Bool) (tag body : List Nat) (dsize : Nat)
    (tyVar : Option Nat) (rbVar : Option (List Nat)) : RBStep :=
  if tag = [0, 0, 0, 0] then .proceed (some 0) (if cb then some body else rbVar)
  else if tag = [1, 0, 0, 0] then
    if C.lzoAvailable then
      if cb then
        match C.lzoDecompress dsize body with
        | some rb => .proceed (some 1) (some rb)
        | none => .fail .lzoError
      else .proceed (some 1) rbVar
    else .breakLoop
  else if tag = [2, 0, 0, 0] then
    if cb then
      match C.zlibDecompress body with
      | some rb => .proceed (some 2) (some rb)
      | none => .fail .zlibError
    else .proceed (some 2) rbVar
  else .proceed tyVar rbVar

/-- The `check_block` assertions of both `get_index` methods
(lines 420-422 and 507-509): with `check_block` set, reading the
`record_block` local (unbound when no branch assigned it — `NameError`),
then `assert adler32 == zlib.adler32(record_block) & 0xFFFFFFFF` and
`assert len(record_block) == decompressed_size`. -/
def recordBlockCheck (cb : Bool) (adlerVal dsize : Nat) (rb : Option (List Nat)) :
    Except PyErr Unit :=
  if cb then
    match rb with
    | none => .error .nameError
    | some rbv =>
        if adlerVal = adler32 rbv &&& 0xFFFFFFFF then
          if rbv.length = dsize then .ok () else .error .assertionError
        else .error .assertionError
  else .ok ()

/-- The `while i < len(self._key_list)` loop of `MDD.get_index`
(lines 424-444): assign keys to the current block while
`record_start - offset < decompressed_size` (Python integer
subtraction), computing `record_end` from the next key or the block end;
returns the emitted records and the keys left for later blocks. -/
def mddAssignKeys (fp csize dsize ty off : Nat) :
    List (Nat × String) → List IndexRecord × List (Nat × String)
  | [] => ([], [])
  | (rs, kt) :: rest =>
      if (rs : Int) - (off : Int) ≥ (dsize : Int) then ([], (rs, kt) :: rest)
      else
        let re := match rest with
          | (rs2, _) :: _ => rs2
          | [] => dsize + off
        match mddAssignKeys fp csize dsize ty off rest with
        | (more, rem) => (⟨fp, csize, dsize, ty, rs, kt, off, re⟩ :: more, rem)

/-- Same loop as duplicated in `MDX.get_index` (lines 511-531). -/
def mdxAssignKeys (fp csize dsize ty off : Nat) :
    List (Nat × String) → List IndexRecord × List (Nat × String)
  | [] => ([], [])
  | (rs, kt) :: rest =>
      if (rs : Int) - (off : Int) ≥ (dsize : Int) then ([], (rs, kt) :: rest)
      else
        let re := match rest with
          | (rs2, _) :: _ => rs2
          | [] => dsize + off
        match mdxAssignKeys fp csize dsize ty off rest with
        | (more, rem) => (⟨fp, csize, dsize, ty, rs, kt, off, re⟩ :: more, rem)

/-- The record-block walk of `MDD.get_index` (lines 391-447), carrying
the file position, cumulative decompressed `offset`, the remaining keys,
`size_counter`, and the loop-scoped Python locals `_type` and
`record_block` (stale across iterations).  Returns the records and the
final `size_counter`; an LZO break returns early with the counter as it
stands, matching the `break` before the `+= compressed_size` line. -/
def mddRecordLoop (C : Codecs) (bs : List Nat) (cb : Bool) :
    List (Nat × Nat) → Nat → Nat → List (Nat × String) → Nat →
    Option Nat → Option (List Nat) → List IndexRecord →
    Except PyErr (List IndexRecord × Nat)
  | [], _, _, _, sc, _, _, acc => .ok (acc, sc)
  | (csize, dsize) :: rest, pos, off, keys, sc, tyVar, rbVar, acc =>
      let rbc := pySlice bs pos (pos + csize)
      match beU32 (pySlice rbc 4 8) with
      | none => .error .structError
      | some adlerVal =>
          match recordBlockDispatch C cb (rbc.take 4) (rbc.drop 8) dsize tyVar rbVar with
          | .fail e => .error e
          | .breakLoop => .ok (acc, sc)
          | .proceed ty rb =>
              match recordBlockCheck cb adlerVal dsize rb with
              | .error e => .error e
              | .ok _ =>
                  match keys with
                  | [] =>
                      mddRecordLoop C bs cb rest (min (pos + csize) bs.length) (off + dsize)
                        [] (sc + csize) ty rb acc
                  | k :: krest =>
                      match ty with
                      | none => .error .nameError
                      | some tyv =>
                          match mddAssignKeys pos csize dsize tyv off (k :: krest) with
                          | (recsNew, rem) =>
                              mddRecordLoop C bs cb rest (min (pos + csize) bs.length)
                                (off + dsize) rem (sc + csize) ty rb (acc ++ recsNew)

/-- The record-block walk of `MDX.get_index` (lines 478-534), duplicated
from the MDD one in the source. -/
def mdxRecordLoop (C : Codecs) (bs : List Nat) (cb : Bool) :
    List (Nat × Nat) → Nat → Nat → List (Nat × String) → Nat →
    Option Nat → Option (List Nat) → List IndexRecord →
    Except PyErr (List IndexRecord × Nat)
  | [], _, _, _, sc, _, _, acc => .ok (acc, sc)
  | (csize, dsize) :: rest, pos, off, keys, sc, tyVar, rbVar, acc =>
      let rbc := pySlice bs pos (pos + csize)
      match beU32 (pySlice rbc 4 8) with
      | none => .error .structError
      | some adlerVal =>
          match recordBlockDispatch C cb (rbc.take 4) (rbc.drop 8) dsize tyVar rbVar with
          | .fail e => .error e
          | .breakLoop => .ok (acc, sc)
          | .proceed ty rb =>
              match recordBlockCheck cb adlerVal dsize rb with
              | .error e => .error e
              | .ok _ =>
                  match keys with
                  | [] =>
                      mdxRecordLoop C bs cb rest (min (pos + csize) bs.length) (off + dsize)
                        [] (sc + csize) ty rb acc
                  | k :: krest =>
                      match ty with
                      | none => .error .nameError
                      | some tyv =>
                          match mdxAssignKeys pos csize dsize tyv off (k :: krest) with
                          | (recsNew, rem) =>
                              mdxRecordLoop C bs cb rest (min (pos + csize) bs.length)
                                (off + dsize) rem (sc + csize) ty rb (acc ++ recsNew)

/-- Model of `MDD.get_index(check_block)` (lines 371-450): parse the
record section, walk the blocks, and finally
`assert size_counter == record_block_size`. -/
def mddGetIndex (C : Codecs) (st : MState) (checkBlock : Bool) :
    Except PyErr (List IndexRecord) :=
  match parseRecordSection st with
  | .error e => .error e
  | .ok sec =>
      match mddRecordLoop C st.recordBytes checkBlock sec.infoList sec.dataPos 0
          st.keyList 0 none none [] with
      | .error e => .error e
      | .ok (recs, sc) =>
          if sc = sec.recordBlockSize then .ok recs else .error .assertionError

/-- Model of `MDX.get_index(check_block)` (lines 458-543): same walk, but
with *no* final `size_counter` assertion (the source accumulates the
counter and then only writes `f.close`), and the result wrapped together
with the meta object. -/
def mdxGetIndex (C : Codecs) (st : MState) (checkBlock : Bool) :
    Except PyErr (List IndexRecord × MXMeta) :=
  match parseRecordSection st with
  | .error e => .error e
  | .ok sec =>
      match mdxRecordLoop C st.recordBytes checkBlock sec.infoList sec.dataPos 0
          st.keyList 0 none none [] with
      | .error e => .error e
      | .ok (recs, _) => .ok (recs, metaOf st)

/-- Record-block info table of an archive state (empty when the record
section does not parse). -/
def recordInfoOf (st : MState) : List (Nat × Nat) :=
  match parseRecordSection st with
  | .ok sec => sec.infoList
  | .error _ => []

/-- The `record_block_size` counter of the record section (zero when the
record section does not parse). -/
def recordBlockSizeOf (st : MState) : Nat :=
  match parseRecordSection st with
  | .ok sec => sec.recordBlockSize
  | .error _ => 0

/-! ### Concrete archive states used as witnesses and counterexamples -/

/-- Big-endian 4-byte encoding, for building version-1 test sections. -/
def be4 (n : Nat) : List Nat :=
  [n / 16777216 % 256, n / 65536 % 256, n / 256 % 256, n % 256]

/-- Codecs with no LZO support and a failing zlib (all concrete states
below use only raw (`00 00 00 00`) blocks, so zlib is never consulted). -/
def noCodecs : Codecs :=
  ⟨fun _ => none, fun _ _ => none, false⟩

/-- A constant key-splitting function standing in for
`_split_key_block`. -/
def splitK : List Nat → List (Nat × String) :=
  fun _ => [(0, "k")]

/-- Decompressed payload of the first test record block. -/
def payload1 : List Nat := [104, 105, 120, 121, 122]

/-- Decompressed payload of the second test record block of `st2`. -/
def payload2 : List Nat := List.replicate 20 0

/-- Well-formed version-1 archive state: two keys at offsets 0 and 3,
one raw record block of decompressed size 5. -/
def st1 : MState where
  keyList := [(0, "a"), (3, "b")]
  numEntries := 2
  numberWidth := 4
  recordBytes :=
    be4 1 ++ be4 2 ++ be4 8 ++ be4 13 ++ be4 13 ++ be4 5 ++
      ([0, 0, 0, 0] ++ be4 (adler32 payload1) ++ payload1)
  encoding := "UTF-8"
  stylesheet := []
  title := "t"
  description := "d"

/-- The index `get_index` emits for `st1`. -/
def recs1 : List IndexRecord :=
  [⟨24, 13, 5, 0, 0, "a", 0, 3⟩, ⟨24, 13, 5, 0, 3, "b", 0, 5⟩]

/-- Archive state whose key offsets are *not* aligned with the record
block boundaries: the second key (offset 10) skips past the end of the
first block (sizes 5 and 20). -/
def st2 : MState where
  keyList := [(0, "a"), (10, "b")]
  numEntries := 2
  numberWidth := 4
  recordBytes :=
    be4 2 ++ be4 2 ++ be4 16 ++ be4 41 ++ be4 13 ++ be4 5 ++ be4 28 ++ be4 20 ++
      ([0, 0, 0, 0] ++ be4 (adler32 payload1) ++ payload1) ++
      ([0, 0, 0, 0] ++ be4 (adler32 payload2) ++ payload2)
  encoding := "UTF-8"
  stylesheet := []
  title := "t"
  description := "d"

/-- The index `get_index` emits for `st2`: the first record's
`record_end` (10) exceeds its block's `offset + decompressed_size` (5). -/
def recs2 : List IndexRecord :=
  [⟨32, 13, 5, 0, 0, "a", 0, 10⟩, ⟨45, 28, 20, 0, 10, "b", 5, 25⟩]

/-- Same archive as `st1` except that the `record_block_size` counter
(14) does not match the actual compressed total (13). -/
def st3 : MState where
  keyList := [(0, "a"), (3, "b")]
  numEntries := 2
  numberWidth := 4
  recordBytes :=
    be4 1 ++ be4 2 ++ be4 8 ++ be4 14 ++ be4 13 ++ be4 5 ++
      ([0, 0, 0, 0] ++ be4 (adler32 payload1) ++ payload1)
  encoding := "UTF-8"
  stylesheet := []
  title := "t"
  description := "d"

/-- Archive state whose second record block carries the LZO tag
`01 00 00 00`; one key lives in the first block and one in the second. -/
def stC8 : MState where
  keyList := [(0, "a"), (5, "b")]
  numEntries := 2
  numberWidth := 4
  recordBytes :=
    be4 2 ++ be4 2 ++ be4 16 ++ be4 21 ++ be4 13 ++ be4 5 ++ be4 8 ++ be4 3 ++
      ([0, 0, 0, 0] ++ be4 (adler32 payload1) ++ payload1) ++
      [1, 0, 0, 0, 0, 0, 0, 0]
  encoding := "UTF-8"
  stylesheet := []
  title := "t"
  description := "d"

/-- Compressed key-block buffer whose second block carries the LZO tag:
a raw block with body `[7]` followed by an LZO-tagged block. -/
def kbc8 : List Nat :=
  ([0, 0, 0, 0] ++ be4 (adler32 [7]) ++ [7]) ++ ([1, 0, 0, 0] ++ [0, 0, 0, 0])

/-- Compressed key-block buffer whose second block carries the unknown
tag `03 00 00 00` but stores the Adler-32 of the *first* block's
decompressed payload `[7]`. -/
def kbc9 : List Nat :=
  ([0, 0, 0, 0] ++ be4 (adler32 [7]) ++ [7]) ++ ([3, 0, 0, 0] ++ be4 (adler32 [7]))

/-- Header tag dict carrying `GBK` as encoding. -/
def dGbk : List (PyKey × List Nat) :=
  [(PyKey.bytes (strBytes "Encoding"), strBytes "GBK"),
   (PyKey.bytes (strBytes "GeneratedByEngineVersion"), strBytes "2.0")]

/-- Header tag dict carrying `GB2312` as encoding. -/
def dGb2312 : List (PyKey × List Nat) :=
  [(PyKey.bytes (strBytes "Encoding"), strBytes "GB2312"),
   (PyKey.bytes (strBytes "GeneratedByEngineVersion"), strBytes "2.0")]

/-- Header tag dict with a well-formed three-line `StyleSheet`
attribute (stored, as `_parse_header` produces it, under a *byte-string*
key). -/
def dSty : List (PyKey × List Nat) :=
  [(PyKey.bytes (strBytes "Encoding"), strBytes "UTF-8"),
   (PyKey.bytes (strBytes "GeneratedByEngineVersion"), strBytes "2.0"),
   (PyKey.bytes (strBytes "StyleSheet"), strBytes "name\npre\nsuf")]

/-- Structurally defined decidability for `List.Chain'`, so that the
alignment hypotheses below evaluate by `decide` on concrete states (the
library instance is tactic-defined and does not reduce in the kernel). -/
instance decChainKernel {α : Type} (R : α → α → Prop) [DecidableRel R] :
    ∀ (l : List α), Decidable (List.Chain' R l)
  | [] => .isTrue (by simp)
  | [_] => .isTrue (by simp)
  | a :: b :: l =>
      haveI := decChainKernel R (b :: l)
      decidable_of_iff (R a b ∧ List.Chain' R (b :: l)) List.chain'_cons.symm

/-- Key offsets strictly increasing along the key list (the spec's
sortedness invariant, strengthened to strict: with duplicate offsets a
record's `record_end` equals its `record_start`). -/
abbrev strictSorted (ks : List (Nat × String)) : Prop :=
  List.Pairwise (fun a b => a.1 < b.1) ks

/-- Alignment of key offsets with record-block boundaries, relative to a
base offset: for every block `j` (with boundary interval given by the
prefix sums of the decompressed sizes), whenever a key falls inside
block `j`'s interval, the next key's offset does not skip past the end
of that interval.  Real archives satisfy this because records tile the
decompressed stream and each key points at a record start. -/
abbrev blockAligned (ks : List (Nat × String)) (infos : List (Nat × Nat))
    (base : Nat) : Prop :=
  ∀ j, j < infos.length →
    List.Chain' (fun a b =>
      base + ((infos.take j).map Prod.snd).sum ≤ a.1 →
      a.1 < base + ((infos.take j).map Prod.snd).sum + (infos.getD j (0, 0)).2 →
      b.1 ≤ base + ((infos.take j).map Prod.snd).sum + (infos.getD j (0, 0)).2) ks

end Mdict

namespace Mdict

theorem fastDecryptAux_length (key : List Nat) :
    ∀ (data : List Nat) (i previous : Nat),
      (fastDecryptAux key i previous data).length = data.length := by
  intro data
  induction data with
  | nil => intro i previous; rfl
  | cons b rest ih =>
      intro i previous
      simp [fastDecryptAux, ih]

theorem fastDecryptAux_getD (key : List Nat) :
    ∀ (data : List Nat) (i0 previous n : Nat), n < data.length →
      (fastDecryptAux key i0 previous data).getD n 0 =
        rotNibbles (data.getD n 0) ^^^
          (if n = 0 then previous else data.getD (n - 1) 0) ^^^
          ((i0 + n) &&& 0xFF) ^^^ key.getD ((i0 + n) % key.length) 0 := by
  intro data
  induction data with
  | nil => intro i0 previous n h; simp at h
  | cons b rest ih =>
      intro i0 previous n h
      cases n with
      | zero => simp [fastDecryptAux]
      | succ m =>
          have hm : m < rest.length := by
            simpa [Nat.succ_lt_succ_iff] using h
          have := ih (i0 + 1) b m hm
          have harith : i0 + 1 + m = i0 + (m + 1) := by omega
          simp only [fastDecryptAux, List.getD_cons_succ]
          rw [this, harith]
          cases m with
          | zero => simp
          | succ k => simp

/-- C6: for every byte string `data` and non-empty `key`,
`_fast_decrypt(data, key)` preserves the length, and byte `i` of the
output is `rotate_nibbles(data[i]) XOR previous XOR (i AND 0xFF) XOR
key[i mod len(key)]` with `previous = 0x36` at `i = 0` and the original
input byte `data[i-1]` for `i > 0` (the formula captured by
`fastDecryptSpecByte`). -/
theorem fastDecrypt_spec (data key : List Nat) (hk : key ≠ []) :
    (fastDecrypt data key).length = data.length ∧
      ∀ i, i < data.length →
        (fastDecrypt data key).getD i 0 = fastDecryptSpecByte data key i := by
  refine ⟨fastDecryptAux_length key data 0 0x36, fun i hi => ?_⟩
  have := fastDecryptAux_getD key data 0 0x36 i hi
  simpa [fastDecrypt, fastDecryptSpecByte] using this

/-- Witness for `fastDecrypt_spec` at `data = [18, 52]`, `key = [1]`. -/
theorem fastDecrypt_spec_witness :
    ([1] : List Nat) ≠ [] ∧
      ((fastDecrypt [18, 52] [1]).length = ([18, 52] : List Nat).length ∧
        ∀ i, i < ([18, 52] : List Nat).length →
          (fastDecrypt [18, 52] [1]).getD i 0 = fastDecryptSpecByte [18, 52] [1] i) :=
  ⟨by decide, fastDecrypt_spec [18, 52] [1] (by decide)⟩

/-- C7 counterexample: building the synthetic blob with `fast_decrypt`
itself, as the claim prescribes, does *not* round-trip through
`_mdx_decrypt` — `fast_decrypt` is not an involution (decrypting
`fast_decrypt([0], key)` again yields `[187]`, not `[0]`, for the key
derived from an all-zero header). -/
theorem mdxDecrypt_fastDecrypt_roundtrip_cex :
    mdxDecrypt (List.replicate 8 0 ++
        fastDecrypt [0] (ripemd128 ((List.replicate 8 0).drop 4 ++ packLe32 0x3695))) ≠
      List.replicate 8 0 ++ [0] := by decide

/-- C7 amended: `_mdx_decrypt` recovers `h ++ info` from `h ++ c` when
`c` is a *pre-image* of `info` under `_fast_decrypt` with the key
derived from `h[4:8] || little_endian_u32(0x3695)` (the blob must be
built with the inverse of `fast_decrypt`, not with `fast_decrypt`
itself). -/
theorem mdxDecrypt_recovers_preimage (h c info : List Nat) (hlen : h.length = 8)
    (hpre : fastDecrypt c (ripemd128 (h.drop 4 ++ packLe32 0x3695)) = info) :
    mdxDecrypt (h ++ c) = h ++ info := by
  have htake : pySlice (h ++ c) 0 8 = h := by
    simp [pySlice, List.take_left' hlen]
  have hdrop : (h ++ c).drop 8 = c := List.drop_left' hlen
  have hkey : pySlice (h ++ c) 4 8 = h.drop 4 := by
    have h4 : (4 : Nat) ≤ h.length := by omega
    have hsplit : (h ++ c).drop 4 = h.drop 4 ++ c :=
      List.drop_append_of_le_length h4
    have hlen4 : (h.drop 4).length = 4 := by
      simp [hlen]
    simp [pySlice, hsplit, List.take_left' hlen4]
  show pySlice (h ++ c) 0 8 ++
      fastDecrypt ((h ++ c).drop 8) (ripemd128 (pySlice (h ++ c) 4 8 ++ packLe32 0x3695)) =
    h ++ info
  rw [htake, hdrop, hkey, hpre]

/-- Witness for `mdxDecrypt_recovers_preimage` with an all-zero 8-byte
header and the pre-image `c = [0]`. -/
theorem mdxDecrypt_recovers_preimage_witness :
    (List.replicate 8 0 : List Nat).length = 8 ∧
      fastDecrypt [0] (ripemd128 ((List.replicate 8 0 : List Nat).drop 4 ++ packLe32 0x3695)) =
        fastDecrypt [0] (ripemd128 ((List.replicate 8 0 : List Nat).drop 4 ++ packLe32 0x3695)) ∧
      mdxDecrypt (List.replicate 8 0 ++ [0]) =
        List.replicate 8 0 ++ fastDecrypt [0]
          (ripemd128 ((List.replicate 8 0 : List Nat).drop 4 ++ packLe32 0x3695)) :=
  ⟨by decide, rfl, mdxDecrypt_recovers_preimage _ _ _ (by decide) rfl⟩

/-- Helper: a successful `readHeaderTags` run reports exactly the
encoding that `resolveEncoding` produced. -/
theorem readHeaderTags_encodingOf (tags : List (PyKey × List Nat)) (e0 : String)
    (hi : HeaderInfo) (h : readHeaderTags tags e0 = .ok hi) :
    resolveEncoding tags e0 = .ok hi.encoding := by
  unfold readHeaderTags at h
  cases h1 : resolveEncoding tags e0 with
  | error e => rw [h1] at h; exact Except.noConfusion h
  | ok enc =>
      rw [h1] at h
      simp only [Bind.bind, Except.bind] at h
      cases h2 : decodedOrEmpty tags "Title" with
      | error e => rw [h2] at h; exact Except.noConfusion h
      | ok t =>
          rw [h2] at h
          cases h3 : decodedOrEmpty tags "Description" with
          | error e => rw [h3] at h; exact Except.noConfusion h
          | ok de =>
              rw [h3] at h
              cases h4 : encryptVal tags with
              | error e => rw [h4] at h; exact Except.noConfusion h
              | ok en =>
                  rw [h4] at h
                  cases h5 : stylesheetVal tags with
                  | error e => rw [h5] at h; exact Except.noConfusion h
                  | ok sty =>
                      rw [h5] at h
                      cases h6 : widthVal tags with
                      | error e => rw [h6] at h; exact Except.noConfusion h
                      | ok w =>
                          rw [h6] at h
                          simp only [pure, Except.pure, Except.ok.injEq] at h
                          subst h
                          rfl

/-- C4 counterexample: with no `Encoding` attribute in the header and no
encoding argument, `_read_header` raises `KeyError` at
`header_tag[b"Encoding"]` — the archive does not default to UTF-8. -/
theorem encoding_default_cex :
    readHeaderTags [] "" = Except.error PyErr.keyError := by decide

/-- C4 amended: when `open` is called without an explicit encoding, a
header without an `Encoding` attribute makes opening fail with
`KeyError` (there is no UTF-8 default); a `GBK` or `GB2312` header value
becomes `GB18030`; and an `.mdd` archive (constructor encoding
`"UTF-16"`) always uses `UTF-16` regardless of the header. -/
theorem encoding_resolution :
    (∀ tags, pyGet tags (PyKey.bytes (strBytes "Encoding")) = none →
        readHeaderTags tags "" = .error .keyError) ∧
    (∀ tags hi, pyGet tags (PyKey.bytes (strBytes "Encoding")) = some (strBytes "GBK") →
        readHeaderTags tags "" = .ok hi → hi.encoding = "GB18030") ∧
    (∀ tags hi, pyGet tags (PyKey.bytes (strBytes "Encoding")) = some (strBytes "GB2312") →
        readHeaderTags tags "" = .ok hi → hi.encoding = "GB18030") ∧
    (∀ tags hi, readHeaderTags tags "UTF-16" = .ok hi → hi.encoding = "UTF-16") := by
  refine ⟨fun tags h => ?_, fun tags hi h hok => ?_, fun tags hi h hok => ?_,
    fun tags hi hok => ?_⟩
  · have hres : resolveEncoding tags "" = .error .keyError := by
      unfold resolveEncoding
      rw [if_pos rfl, h]
    unfold readHeaderTags
    rw [hres]
    rfl
  · have hres : resolveEncoding tags "" = .ok "GB18030" := by
      unfold resolveEncoding
      rw [if_pos rfl, h]
      decide
    have henc := readHeaderTags_encodingOf tags "" hi hok
    rw [hres] at henc
    exact (Except.ok.inj henc).symm
  · have hres : resolveEncoding tags "" = .ok "GB18030" := by
      unfold resolveEncoding
      rw [if_pos rfl, h]
      decide
    have henc := readHeaderTags_encodingOf tags "" hi hok
    rw [hres] at henc
    exact (Except.ok.inj henc).symm
  · have hres : resolveEncoding tags "UTF-16" = .ok "UTF-16" := by
      unfold resolveEncoding
      rw [if_neg (by decide)]
    have henc := readHeaderTags_encodingOf tags "UTF-16" hi hok
    rw [hres] at henc
    exact (Except.ok.inj henc).symm

/-- Witness for `encoding_resolution`, exercising all four parts at the
concrete headers `[]`, `dGbk`, `dGb2312` and `dSty`. -/
theorem encoding_resolution_witness :
    readHeaderTags [] "" = Except.error PyErr.keyError ∧
      (⟨"GB18030", "", "", 0, [], 8⟩ : HeaderInfo).encoding = "GB18030" ∧
      (⟨"GB18030", "", "", 0, [], 8⟩ : HeaderInfo).encoding = "GB18030" ∧
      (⟨"UTF-16", "", "", 0, [], 8⟩ : HeaderInfo).encoding = "UTF-16" :=
  ⟨encoding_resolution.1 [] (by decide),
   encoding_resolution.2.1 dGbk ⟨"GB18030", "", "", 0, [], 8⟩ (by decide) (by decide),
   encoding_resolution.2.2.1 dGb2312 ⟨"GB18030", "", "", 0, [], 8⟩ (by decide) (by decide),
   encoding_resolution.2.2.2 dSty ⟨"UTF-16", "", "", 0, [], 8⟩ (by decide)⟩

/-- C5 (code bug): `dSty` contains a well-formed three-line `StyleSheet`
attribute under the byte-string key `_parse_header` produces, yet the
resulting stylesheet mapping is empty — line 265 of the source looks the
attribute up under the *text* key `"StyleSheet"`, which can never match
a byte-string key, so the triple-building loop is dead code. -/
theorem stylesheet_dead_branch :
    readHeaderTags dSty "" = Except.ok ⟨"UTF-8", "", "", 0, [], 8⟩ := by decide

/-- C9 (code bug): in `kbc9` the second key block carries the
unrecognized tag `03 00 00 00`; no dispatch branch fires, the `key_block`
local keeps the *previous* block's decompressed payload `[7]`, its split
entries are appended a second time, and — because the stale payload's
Adler-32 happens to match the stored field — decoding returns
successfully with substituted entries instead of failing. -/
theorem unknown_tag_substitutes :
    decodeKeyBlock noCodecs splitK kbc9 [(9, 1), (8, 1)] =
      Except.ok [(0, "k"), (0, "k")] := by decide

/-- C8 counterexample: with LZO unavailable, `_decode_key_block` run on
`kbc8` (whose second block carries the LZO tag) returns a silently
truncated key list, and `MDX.get_index` on `stC8` (whose second record
block carries the LZO tag) returns a truncated index with only the first
block's record — neither fails with any error. -/
theorem lzo_break_cex :
    decodeKeyBlock noCodecs splitK kbc8 [(9, 1), (8, 3)] = Except.ok [(0, "k")] ∧
      mdxGetIndex noCodecs stC8 true =
        Except.ok ([⟨32, 13, 5, 0, 0, "a", 0, 5⟩], metaOf stC8) := by decide

/-- C8 amended: when a key block or record block carries the LZO tag
`01 00 00 00` and no LZO implementation is available, the decoding loop
`break`s: `_decode_key_block` returns the keys accumulated so far and
`MDX.get_index`'s block walk returns the records and size counter
accumulated so far, in both cases with no error raised (no
`UnsupportedCompression` exists in the code). -/
theorem lzo_break_truncates :
    (∀ (C : Codecs) (split : List Nat → List (Nat × String)) (kbc : List Nat)
        (csize dsize : Nat) (rest : List (Nat × Nat)) (i : Nat)
        (kbV : Option (List Nat)) (acc : List (Nat × String)) (a : Nat),
        C.lzoAvailable = false →
        pySlice kbc i (i + 4) = [1, 0, 0, 0] →
        beU32 (pySlice kbc (i + 4) (i + 8)) = some a →
        decodeKeyBlockAux C split kbc ((csize, dsize) :: rest) i kbV acc = .ok acc) ∧
    (∀ (C : Codecs) (bs : List Nat) (cb : Bool) (csize dsize : Nat)
        (rest : List (Nat × Nat)) (pos off : Nat) (keys : List (Nat × String))
        (sc : Nat) (tyV : Option Nat) (rbV : Option (List Nat))
        (acc : List IndexRecord) (a : Nat),
        C.lzoAvailable = false →
        (pySlice bs pos (pos + csize)).take 4 = [1, 0, 0, 0] →
        beU32 (pySlice (pySlice bs pos (pos + csize)) 4 8) = some a →
        mdxRecordLoop C bs cb ((csize, dsize) :: rest) pos off keys sc tyV rbV acc =
          .ok (acc, sc)) := by
  constructor
  · intro C split kbc csize dsize rest i kbV acc a hlzo htag hadler
    simp [decodeKeyBlockAux, hadler, htag, keyBlockDispatch, hlzo]
  · intro C bs cb csize dsize rest pos off keys sc tyV rbV acc a hlzo htag hadler
    simp [mdxRecordLoop, hadler, htag, recordBlockDispatch, hlzo]

/-- Witness for `lzo_break_truncates` on a concrete one-block LZO
buffer. -/
theorem lzo_break_truncates_witness :
    (noCodecs.lzoAvailable = false ∧
      pySlice [1, 0, 0, 0, 0, 0, 0, 0] 0 (0 + 4) = [1, 0, 0, 0] ∧
      beU32 (pySlice [1, 0, 0, 0, 0, 0, 0, 0] (0 + 4) (0 + 8)) = some 0 ∧
      decodeKeyBlockAux noCodecs splitK [1, 0, 0, 0, 0, 0, 0, 0] [(8, 3)] 0 none [] =
        .ok []) ∧
    (pySlice [1, 0, 0, 0, 0, 0, 0, 0] 0 (0 + 8) |>.take 4) = [1, 0, 0, 0] ∧
      mdxRecordLoop noCodecs [1, 0, 0, 0, 0, 0, 0, 0] true [(8, 3)] 0 0 [(0, "a")] 5
        none none [] = .ok ([], 5) :=
  ⟨⟨by decide, by decide, by decide,
    lzo_break_truncates.1 noCodecs splitK [1, 0, 0, 0, 0, 0, 0, 0] 8 3 [] 0 none [] 0
      (by decide) (by decide) (by decide)⟩,
   by decide,
   lzo_break_truncates.2 noCodecs [1, 0, 0, 0, 0, 0, 0, 0] true 8 3 [] 0 0 [(0, "a")] 5
     none none [] 0 (by decide) (by decide) (by decide)⟩

/-- C3 counterexample: `st3`'s `record_block_size` counter (14) differs
from the actual compressed total (13), yet `MDX.get_index` succeeds —
the MDX method never checks the counter (its `size_counter` is computed
and then dropped). -/
theorem mdx_size_check_cex :
    mdxGetIndex noCodecs st3 true = Except.ok (recs1, metaOf st3) ∧
      ((recordInfoOf st3).map Prod.fst).sum ≠ recordBlockSizeOf st3 := by decide

/-- C10 counterexample: on the same parsed state `st3` and the same
`check_block` argument, `MDD.get_index` fails its final
`size_counter == record_block_size` assertion while `MDX.get_index`
returns an index — the two methods do not always produce identical
record lists. -/
theorem mdx_mdd_divergence_cex :
    mddGetIndex noCodecs st3 true = Except.error PyErr.assertionError ∧
      mdxGetIndex noCodecs st3 true = Except.ok (recs1, metaOf st3) := by decide

/-- Helper: the while-loop bodies duplicated between `MDX.get_index` and
`MDD.get_index` compute the same assignment. -/
theorem mdxAssignKeys_eq_mdd (fp c d ty off : Nat) :
    ∀ ks, mdxAssignKeys fp c d ty off ks = mddAssignKeys fp c d ty off ks := by
  intro ks
  induction ks with
  | nil => rfl
  | cons k rest ih =>
      cases k with
      | mk rs kt => simp only [mdxAssignKeys, mddAssignKeys, ih]

/-- Helper: the record-block walks duplicated between the two `get_index`
methods compute the same records and size counter. -/
theorem mdxRecordLoop_eq_mdd (C : Codecs) (bs : List Nat) (cb : Bool) :
    ∀ infos pos off keys sc tyV rbV acc,
      mdxRecordLoop C bs cb infos pos off keys sc tyV rbV acc =
        mddRecordLoop C bs cb infos pos off keys sc tyV rbV acc := by
  intro infos
  induction infos with
  | nil => intro pos off keys sc tyV rbV acc; rfl
  | cons p rest ih =>
      intro pos off keys sc tyV rbV acc
      cases p with
      | mk csize dsize =>
          simp only [mdxRecordLoop, mddRecordLoop, mdxAssignKeys_eq_mdd, ih]

/-- C10 amended: whenever `MDD.get_index` succeeds, `MDX.get_index` on
the same parsed state and `check_block` argument succeeds with the
identical record list, additionally wrapped with the meta object; the
two can differ only in that MDX omits MDD's final
`size_counter == record_block_size` assertion. -/
theorem mdx_refines_mdd (C : Codecs) (st : MState) (cb : Bool) (recs : List IndexRecord)
    (h : mddGetIndex C st cb = .ok recs) :
    mdxGetIndex C st cb = .ok (recs, metaOf st) := by
  unfold mddGetIndex at h
  unfold mdxGetIndex
  cases hp : parseRecordSection st with
  | error e => rw [hp] at h; exact Except.noConfusion h
  | ok sec =>
      rw [hp] at h
      dsimp only at h ⊢
      rw [mdxRecordLoop_eq_mdd]
      cases hl : mddRecordLoop C st.recordBytes cb sec.infoList sec.dataPos 0
          st.keyList 0 none none [] with
      | error e => rw [hl] at h; exact Except.noConfusion h
      | ok p =>
          rw [hl] at h
          obtain ⟨recs', sc⟩ := p
          by_cases hsc : sc = sec.recordBlockSize
          · simp only [hsc, if_pos rfl] at h
            rw [Except.ok.inj h]
          · simp only [if_neg hsc] at h
            exact Except.noConfusion h

/-- Witness for `mdx_refines_mdd` at the well-formed state `st1`. -/
theorem mdx_refines_mdd_witness :
    mddGetIndex noCodecs st1 true = Except.ok recs1 ∧
      mdxGetIndex noCodecs st1 true = Except.ok (recs1, metaOf st1) :=
  ⟨by decide, mdx_refines_mdd noCodecs st1 true recs1 (by decide)⟩

/-- Helper: a successful MDD record walk ends with `size_counter` equal
to its starting value plus the compressed sizes of the processed prefix
of blocks (all blocks, unless an LZO break cut the walk short). -/
theorem mddRecordLoop_sizeCounter (C : Codecs) (bs : List Nat) (cb : Bool) :
    ∀ infos pos off keys sc tyV rbV acc recs sc',
      mddRecordLoop C bs cb infos pos off keys sc tyV rbV acc = .ok (recs, sc') →
      ∃ k, k ≤ infos.length ∧ sc' = sc + ((infos.take k).map Prod.fst).sum := by
  intro infos
  induction infos with
  | nil =>
      intro pos off keys sc tyV rbV acc recs sc' h
      obtain ⟨rfl, rfl⟩ := Prod.mk.inj (Except.ok.inj h)
      exact ⟨0, by simp, by simp⟩
  | cons p rest ih =>
      intro pos off keys sc tyV rbV acc recs sc' h
      obtain ⟨csize, dsize⟩ := p
      simp only [mddRecordLoop] at h
      repeat (any_goals (split at h))
      all_goals try exact Except.noConfusion h
      all_goals first
        | (obtain ⟨rfl, rfl⟩ := Prod.mk.inj (Except.ok.inj h)
           exact ⟨0, by simp, by simp⟩)
        | (obtain ⟨k, hk, hsum⟩ := ih _ _ _ _ _ _ _ _ _ h
           refine ⟨k + 1, by simpa using Nat.succ_le_succ hk, ?_⟩
           simp only [List.take_succ_cons, List.map_cons, List.sum_cons]
           omega)

/-- C3 amended: a successful `MDD.get_index` implies that the sum of
`compressed_size` over the record blocks it processed equals the
`record_block_size` counter read from the record section (MDX performs
no such check — see `mdx_size_check_cex`). -/
theorem mdd_size_check (C : Codecs) (st : MState) (cb : Bool) (recs : List IndexRecord)
    (h : mddGetIndex C st cb = .ok recs) :
    ∃ k, k ≤ (recordInfoOf st).length ∧
      (((recordInfoOf st).take k).map Prod.fst).sum = recordBlockSizeOf st := by
  unfold mddGetIndex at h
  cases hp : parseRecordSection st with
  | error e => rw [hp] at h; exact Except.noConfusion h
  | ok sec =>
      rw [hp] at h
      dsimp only at h
      cases hl : mddRecordLoop C st.recordBytes cb sec.infoList sec.dataPos 0
          st.keyList 0 none none [] with
      | error e => rw [hl] at h; exact Except.noConfusion h
      | ok p =>
          rw [hl] at h
          obtain ⟨recs', sc⟩ := p
          by_cases hsc : sc = sec.recordBlockSize
          · obtain ⟨k, hk, hsum⟩ := mddRecordLoop_sizeCounter C st.recordBytes cb
              sec.infoList sec.dataPos 0 st.keyList 0 none none [] recs' sc hl
            have hinfo : recordInfoOf st = sec.infoList := by
              unfold recordInfoOf; rw [hp]
            have hrbs : recordBlockSizeOf st = sec.recordBlockSize := by
              unfold recordBlockSizeOf; rw [hp]
            refine ⟨k, ?_, ?_⟩
            · rw [hinfo]; exact hk
            · rw [hinfo, hrbs, ← hsc]; omega
          · simp only [if_neg hsc] at h
            exact Except.noConfusion h

/-- Witness for `mdd_size_check` at the well-formed state `st1`. -/
theorem mdd_size_check_witness :
    mddGetIndex noCodecs st1 true = Except.ok recs1 ∧
      ∃ k, k ≤ (recordInfoOf st1).length ∧
        (((recordInfoOf st1).take k).map Prod.fst).sum = recordBlockSizeOf st1 :=
  ⟨by decide, mdd_size_check noCodecs st1 true recs1 (by decide)⟩

/-- Helper: full characterization of one block's key-assignment loop.
The records emitted for a block cover a prefix of the remaining keys
(exactly those satisfying the strict `record_start - offset <
decompressed_size` test, over Python integers), carry the block's
constants, chain `record_end = next record_start`, end at the following
key's offset (or at `decompressed_size + offset` when no key follows),
and the first unassigned key — if any — fails the test. -/
theorem mddAssignKeys_spec (fp c d ty off : Nat) :
    ∀ (ks : List (Nat × String)) (rs : List IndexRecord) (rem : List (Nat × String)),
      mddAssignKeys fp c d ty off ks = (rs, rem) →
      ∃ j, j ≤ ks.length ∧ rem = ks.drop j ∧ rs.length = j ∧
        rs.map (fun r => r.recordStart) = (ks.take j).map Prod.fst ∧
        (∀ r ∈ rs, r.filePos = fp ∧ r.compressedSize = c ∧ r.decompressedSize = d ∧
            r.recordBlockType = ty ∧ r.offset = off ∧
            ((r.recordStart : Int) - (off : Int) < (d : Int))) ∧
        List.Chain' (fun a b => a.recordEnd = b.recordStart) rs ∧
        (∀ r, rs.getLast? = some r →
            r.recordEnd = (((ks.drop j).head?.map Prod.fst).getD (d + off))) ∧
        (∀ k, (ks.drop j).head? = some k → (d : Int) ≤ (k.1 : Int) - (off : Int)) := by
  intro ks
  induction ks with
  | nil =>
      intro rs rem h
      obtain ⟨rfl, rfl⟩ := Prod.mk.inj h
      exact ⟨0, by simp, rfl, rfl, rfl, by simp, by simp, by simp, by simp⟩
  | cons kh rest ih =>
      intro rs rem h
      obtain ⟨rs0, kt⟩ := kh
      by_cases hcond : (rs0 : Int) - (off : Int) ≥ (d : Int)
      · simp only [mddAssignKeys] at h
        rw [if_pos hcond] at h
        obtain ⟨rfl, rfl⟩ := Prod.mk.inj h
        refine ⟨0, by simp, rfl, rfl, rfl, by simp, by simp, by simp, ?_⟩
        intro k hk
        simp only [List.drop_zero, List.head?_cons, Option.some.injEq] at hk
        rw [← hk]
        exact hcond
      · simp only [mddAssignKeys] at h
        rw [if_neg hcond] at h
        cases hrec : mddAssignKeys fp c d ty off rest with
        | mk more rem' =>
            rw [hrec] at h
            dsimp only at h
            obtain ⟨hrs, rfl⟩ := Prod.mk.inj h
            obtain ⟨j', hj'le, hrem, hlen, hmap, hfields, hchain, hlast, hbreak⟩ :=
              ih more rem' hrec
            refine ⟨j' + 1, by simpa using Nat.succ_le_succ hj'le, by simpa using hrem, ?_,
              ?_, ?_, ?_, ?_, ?_⟩
            · rw [← hrs]; simp [hlen]
            · rw [← hrs]
              simp only [List.take_succ_cons, List.map_cons]
              exact congrArg _ hmap
            · intro r hr
              rw [← hrs] at hr
              rcases List.mem_cons.mp hr with hr0 | hrm
              · subst hr0
                refine ⟨rfl, rfl, rfl, rfl, rfl, ?_⟩
                show (rs0 : Int) - (off : Int) < (d : Int)
                omega
              · exact hfields r hrm
            · rw [← hrs]
              rw [List.chain'_cons']
              refine ⟨?_, hchain⟩
              intro y hy
              cases more with
              | nil => simp at hy
              | cons m0 mrest =>
                  simp only [List.head?_cons, Option.mem_def, Option.some.injEq] at hy
                  subst hy
                  have hj1 : 1 ≤ j' := by
                    rw [← hlen]; simp
                  cases rest with
                  | nil => simp at hj'le; omega
                  | cons r2 rest2 =>
                      obtain ⟨rs2, kt2⟩ := r2
                      have hheads := congrArg List.head? hmap
                      cases j' with
                      | zero => omega
                      | succ j'' =>
                          simp only [List.map_cons, List.head?_cons,
                            List.take_succ_cons] at hheads
                          simp only [Option.some.injEq] at hheads
                          simp [hheads]
            · intro r hr
              rw [← hrs] at hr
              cases more with
              | nil =>
                  simp only [List.getLast?_singleton, Option.some.injEq] at hr
                  subst hr
                  have hj0 : j' = 0 := by rw [← hlen]; rfl
                  subst hj0
                  cases rest with
                  | nil => simp
                  | cons r2 rest2 =>
                      obtain ⟨rs2, kt2⟩ := r2
                      simp
              | cons m0 mrest =>
                  rw [List.getLast?_cons_cons] at hr
                  have := hlast r hr
                  simpa using this
            · intro k hk
              apply hbreak
              simpa using hk

/-- Helper: invariant-carrying characterization of the MDD record walk.
Starting from an accumulator whose records cover exactly the first
`acc.length` keys (with the remaining keys being `keyList.drop
acc.length`), a successful walk returns records that still cover a
prefix of the key list, each satisfying the strict assignment test, with
`record_end` chaining to the next record's `record_start` and the final
`record_end` equal to the next unassigned key's offset (or the last
block's `decompressed_size + offset` when every key was assigned). -/
theorem mddRecordLoop_c1 (C : Codecs) (bs : List Nat) (cb : Bool)
    (keyList : List (Nat × String)) :
    ∀ (infos : List (Nat × Nat)) (pos off : Nat) (keys : List (Nat × String))
      (sc : Nat) (tyV : Option Nat) (rbV : Option (List Nat))
      (acc recs : List IndexRecord) (sc' : Nat),
      keys = keyList.drop acc.length →
      acc.map (fun r => r.recordStart) = (keyList.take acc.length).map Prod.fst →
      (∀ r ∈ acc, (r.recordStart : Int) - (r.offset : Int) < (r.decompressedSize : Int)) →
      List.Chain' (fun a b => a.recordEnd = b.recordStart) acc →
      (∀ r, acc.getLast? = some r →
          r.recordEnd = ((keys.head?.map Prod.fst).getD (r.decompressedSize + r.offset))) →
      mddRecordLoop C bs cb infos pos off keys sc tyV rbV acc = .ok (recs, sc') →
      recs.map (fun r => r.recordStart) = (keyList.take recs.length).map Prod.fst ∧
      (∀ r ∈ recs, (r.recordStart : Int) - (r.offset : Int) < (r.decompressedSize : Int)) ∧
      List.Chain' (fun a b => a.recordEnd = b.recordStart) recs ∧
      (∀ r, recs.getLast? = some r →
          r.recordEnd = (((keyList.drop recs.length).head?.map Prod.fst).getD
            (r.decompressedSize + r.offset))) := by
  intro infos
  induction infos with
  | nil =>
      intro pos off keys sc tyV rbV acc recs sc' hkeys hmap hcondP hchain hlastP h
      simp only [mddRecordLoop] at h
      obtain ⟨rfl, rfl⟩ := Prod.mk.inj (Except.ok.inj h)
      refine ⟨hmap, hcondP, hchain, ?_⟩
      intro r hr
      have := hlastP r hr
      rwa [hkeys] at this
  | cons blk rest ih =>
      intro pos off keys sc tyV rbV acc recs sc' hkeys hmap hcondP hchain hlastP h
      obtain ⟨csize, dsize⟩ := blk
      simp only [mddRecordLoop] at h
      cases hbu : beU32 (pySlice (pySlice bs pos (pos + csize)) 4 8) with
      | none => rw [hbu] at h; exact Except.noConfusion h
      | some adlerVal =>
          rw [hbu] at h
          dsimp only at h
          cases hdp : recordBlockDispatch C cb ((pySlice bs pos (pos + csize)).take 4)
              ((pySlice bs pos (pos + csize)).drop 8) dsize tyV rbV with
          | fail e => rw [hdp] at h; exact Except.noConfusion h
          | breakLoop =>
              rw [hdp] at h
              dsimp only at h
              obtain ⟨rfl, rfl⟩ := Prod.mk.inj (Except.ok.inj h)
              refine ⟨hmap, hcondP, hchain, ?_⟩
              intro r hr
              have := hlastP r hr
              rwa [hkeys] at this
          | proceed ty rb =>
              rw [hdp] at h
              dsimp only at h
              cases hck : recordBlockCheck cb adlerVal dsize rb with
              | error e => rw [hck] at h; exact Except.noConfusion h
              | ok u =>
                  rw [hck] at h
                  dsimp only at h
                  cases keys with
                  | nil =>
                      exact ih _ _ _ _ _ _ _ _ _ hkeys hmap hcondP hchain hlastP h
                  | cons k krest =>
                      cases ty with
                      | none => exact Except.noConfusion h
                      | some tyv =>
                          dsimp only at h
                          cases hasg : mddAssignKeys pos csize dsize tyv off (k :: krest) with
                          | mk recsNew rem =>
                              rw [hasg] at h
                              dsimp only at h
                              obtain ⟨j, hjle, hrem, hlen, hmapN, hfieldsN, hchainN,
                                hlastN, hbreakN⟩ :=
                                mddAssignKeys_spec pos csize dsize tyv off
                                  (k :: krest) recsNew rem hasg
                              have hlenA : (acc ++ recsNew).length = acc.length + j := by
                                simp [hlen]
                              have hkeys' : rem = keyList.drop (acc ++ recsNew).length := by
                                rw [hlenA, hrem, hkeys, List.drop_drop]
                                try rw [Nat.add_comm]
                              have hmap' : (acc ++ recsNew).map (fun r => r.recordStart) =
                                  (keyList.take (acc ++ recsNew).length).map Prod.fst := by
                                rw [hlenA, List.take_add, List.map_append, List.map_append,
                                  hmap, hmapN, hkeys]
                              have hcond' : ∀ r ∈ acc ++ recsNew,
                                  (r.recordStart : Int) - (r.offset : Int) <
                                    (r.decompressedSize : Int) := by
                                intro r hr
                                rcases List.mem_append.mp hr with hra | hrn
                                · exact hcondP r hra
                                · obtain ⟨_, _, hd, _, hoff, hlt⟩ := hfieldsN r hrn
                                  rw [hd, hoff]
                                  exact hlt
                              have hchain' : List.Chain'
                                  (fun a b => a.recordEnd = b.recordStart) (acc ++ recsNew) := by
                                rw [List.chain'_append]
                                refine ⟨hchain, hchainN, ?_⟩
                                intro x hx y hy
                                cases recsNew with
                                | nil => simp at hy
                                | cons m0 mrest =>
                                    simp only [List.head?_cons, Option.mem_def,
                                      Option.some.injEq] at hy
                                    subst hy
                                    have hx' : acc.getLast? = some x := hx
                                    have hend := hlastP x hx'
                                    simp only [List.head?_cons, Option.map_some,
                                      Option.getD_some] at hend
                                    have hj1 : 1 ≤ j := by
                                      rw [← hlen]; simp
                                    have hheads := congrArg List.head? hmapN
                                    cases j with
                                    | zero => omega
                                    | succ j' =>
                                        simp only [List.map_cons, List.head?_cons,
                                          List.take_succ_cons, Option.some.injEq] at hheads
                                        rw [hend, hheads]
                                        simp
                              have hlast' : ∀ r, (acc ++ recsNew).getLast? = some r →
                                  r.recordEnd = ((rem.head?.map Prod.fst).getD
                                    (r.decompressedSize + r.offset)) := by
                                intro r hr
                                cases hrn : recsNew with
                                | nil =>
                                    subst hrn
                                    have hj0 : j = 0 := by rw [← hlen]; rfl
                                    simp only [List.append_nil] at hr
                                    have := hlastP r hr
                                    rw [hrem, hj0, List.drop_zero]
                                    exact this
                                | cons m0 mrest =>
                                    subst hrn
                                    rw [List.getLast?_append_cons] at hr
                                    have hrin : r ∈ m0 :: mrest := by
                                      obtain ⟨hne, heq⟩ :=
                                        List.mem_getLast?_eq_getLast (Option.mem_def.mpr hr)
                                      rw [heq]
                                      exact List.getLast_mem hne
                                    obtain ⟨_, _, hd, _, hoff, _⟩ := hfieldsN r hrin
                                    have := hlastN r hr
                                    rw [← hrem] at this
                                    rw [this, hd, hoff]
                              exact ih _ _ _ _ _ _ _ _ _ hkeys' hmap' hcond' hchain' hlast' h

/-- C1: for every archive state on which `get_index` succeeds (both the
MDD and the MDX method), the emitted records cover a prefix of the key
list in order (`record_start` of record `m` is key `m`'s offset), every
emitted record strictly satisfies `record_start - offset <
decompressed_size` over Python integers (so a key whose `record_offset`
equals `offset + decompressed_size` is not assigned to that block), each
record's `record_end` is the next record's `record_start`, and the final
record's `record_end` is the next key's `record_offset` when an
unassigned key remains, else `decompressed_size + offset` of the final
assigned key's block. -/
theorem get_index_assignment :
    (∀ (C : Codecs) (st : MState) (cb : Bool) (recs : List IndexRecord),
        mddGetIndex C st cb = .ok recs →
        recs.map (fun r => r.recordStart) = (st.keyList.take recs.length).map Prod.fst ∧
        (∀ r ∈ recs, (r.recordStart : Int) - (r.offset : Int) < (r.decompressedSize : Int)) ∧
        List.Chain' (fun a b => a.recordEnd = b.recordStart) recs ∧
        recs.getLast?.map (fun r => r.recordEnd) =
          recs.getLast?.map (fun r =>
            ((st.keyList.drop recs.length).head?.map Prod.fst).getD
              (r.decompressedSize + r.offset))) ∧
    (∀ (C : Codecs) (st : MState) (cb : Bool) (recs : List IndexRecord) (m : MXMeta),
        mdxGetIndex C st cb = .ok (recs, m) →
        recs.map (fun r => r.recordStart) = (st.keyList.take recs.length).map Prod.fst ∧
        (∀ r ∈ recs, (r.recordStart : Int) - (r.offset : Int) < (r.decompressedSize : Int)) ∧
        List.Chain' (fun a b => a.recordEnd = b.recordStart) recs ∧
        recs.getLast?.map (fun r => r.recordEnd) =
          recs.getLast?.map (fun r =>
            ((st.keyList.drop recs.length).head?.map Prod.fst).getD
              (r.decompressedSize + r.offset))) := by
  have main : ∀ (C : Codecs) (st : MState) (cb : Bool) (infos : List (Nat × Nat))
      (p0 : Nat) (recs : List IndexRecord) (sc' : Nat),
      mddRecordLoop C st.recordBytes cb infos p0 0 st.keyList 0 none none [] =
        .ok (recs, sc') →
      recs.map (fun r => r.recordStart) = (st.keyList.take recs.length).map Prod.fst ∧
      (∀ r ∈ recs, (r.recordStart : Int) - (r.offset : Int) < (r.decompressedSize : Int)) ∧
      List.Chain' (fun a b => a.recordEnd = b.recordStart) recs ∧
      recs.getLast?.map (fun r => r.recordEnd) =
        recs.getLast?.map (fun r =>
          ((st.keyList.drop recs.length).head?.map Prod.fst).getD
            (r.decompressedSize + r.offset)) := by
    intro C st cb infos p0 recs sc' hl
    obtain ⟨h1, h2, h3, h4⟩ := mddRecordLoop_c1 C st.recordBytes cb st.keyList infos p0 0
      st.keyList 0 none none [] recs sc' rfl rfl (by simp) (by simp)
      (by simp) hl
    refine ⟨h1, h2, h3, ?_⟩
    cases hgl : recs.getLast? with
    | none => rfl
    | some r => exact congrArg some (h4 r hgl)
  constructor
  · intro C st cb recs h
    unfold mddGetIndex at h
    cases hp : parseRecordSection st with
    | error e => rw [hp] at h; exact Except.noConfusion h
    | ok sec =>
        rw [hp] at h
        dsimp only at h
        cases hl : mddRecordLoop C st.recordBytes cb sec.infoList sec.dataPos 0
            st.keyList 0 none none [] with
        | error e => rw [hl] at h; exact Except.noConfusion h
        | ok p =>
            rw [hl] at h
            obtain ⟨recs', sc⟩ := p
            by_cases hsc : sc = sec.recordBlockSize
            · simp only [hsc, if_pos rfl] at h
              cases Except.ok.inj h
              exact main C st cb sec.infoList sec.dataPos _ sc hl
            · simp only [if_neg hsc] at h
              exact Except.noConfusion h
  · intro C st cb recs m h
    unfold mdxGetIndex at h
    cases hp : parseRecordSection st with
    | error e => rw [hp] at h; exact Except.noConfusion h
    | ok sec =>
        rw [hp] at h
        dsimp only at h
        rw [mdxRecordLoop_eq_mdd] at h
        cases hl : mddRecordLoop C st.recordBytes cb sec.infoList sec.dataPos 0
            st.keyList 0 none none [] with
        | error e => rw [hl] at h; exact Except.noConfusion h
        | ok p =>
            rw [hl] at h
            obtain ⟨recs', sc⟩ := p
            dsimp only at h
            obtain ⟨hre, hme⟩ := Prod.mk.inj (Except.ok.inj h)
            cases hre
            exact main C st cb sec.infoList sec.dataPos _ sc hl

/-- Witness for `get_index_assignment` at the well-formed state `st1`. -/
theorem get_index_assignment_witness :
    mddGetIndex noCodecs st1 true = Except.ok recs1 ∧
      (recs1.map (fun r => r.recordStart) =
          (st1.keyList.take recs1.length).map Prod.fst ∧
        (∀ r ∈ recs1,
          (r.recordStart : Int) - (r.offset : Int) < (r.decompressedSize : Int)) ∧
        List.Chain' (fun a b => a.recordEnd = b.recordStart) recs1 ∧
        recs1.getLast?.map (fun r => r.recordEnd) =
          recs1.getLast?.map (fun r =>
            ((st1.keyList.drop recs1.length).head?.map Prod.fst).getD
              (r.decompressedSize + r.offset))) :=
  ⟨by decide, get_index_assignment.1 noCodecs st1 true recs1 (by decide)⟩

/-- C2 counterexample: `st2` opens successfully (strictly sorted keys,
all checksums pass), yet the first emitted record has
`record_end = 10 > offset + decompressed_size = 5`, because the second
key's offset skips past the first block's boundary.  The claimed
invariant does not hold for every successfully opened archive. -/
theorem index_bounds_cex :
    mddGetIndex noCodecs st2 true = Except.ok recs2 ∧
      ¬ (∀ r ∈ recs2, r.offset ≤ r.recordStart ∧ r.recordStart < r.recordEnd ∧
          r.recordEnd ≤ r.offset + r.decompressedSize) := by decide

/-- Helper: per-block bounds.  If the remaining keys all lie at or after
the block's base offset, are strictly sorted, and are aligned with the
block's boundary (chain hypothesis), then every record the block emits
satisfies `offset ≤ record_start < record_end ≤ offset +
decompressed_size`. -/
theorem mddAssignKeys_bounds (fp c d ty off : Nat) :
    ∀ (ks : List (Nat × String)),
      (∀ k ∈ ks, off ≤ k.1) →
      List.Pairwise (fun a b => a.1 < b.1) ks →
      List.Chain' (fun a b => off ≤ a.1 → a.1 < off + d → b.1 ≤ off + d) ks →
      ∀ r ∈ (mddAssignKeys fp c d ty off ks).1,
        r.offset ≤ r.recordStart ∧ r.recordStart < r.recordEnd ∧
          r.recordEnd ≤ r.offset + r.decompressedSize := by
  intro ks
  induction ks with
  | nil => intro _ _ _ r hr; simp [mddAssignKeys] at hr
  | cons kh rest ih =>
      intro hge hpw hch r hr
      obtain ⟨rs0, kt⟩ := kh
      by_cases hcond : (rs0 : Int) - (off : Int) ≥ (d : Int)
      · simp only [mddAssignKeys] at hr
        rw [if_pos hcond] at hr
        simp at hr
      · simp only [mddAssignKeys] at hr
        rw [if_neg hcond] at hr
        cases hrec : mddAssignKeys fp c d ty off rest with
        | mk more rem =>
            rw [hrec] at hr
            dsimp only at hr
            have hoffle : off ≤ rs0 := hge (rs0, kt) (List.mem_cons_self _ _)
            have hlt : rs0 < off + d := by omega
            rcases List.mem_cons.mp hr with hr0 | hrm
            · subst hr0
              cases rest with
              | nil =>
                  exact ⟨hoffle, by show rs0 < d + off; omega, by show d + off ≤ off + d; omega⟩
              | cons k2 rest2 =>
                  obtain ⟨rs2, kt2⟩ := k2
                  have hlt2 : rs0 < rs2 :=
                    (List.pairwise_cons.mp hpw).1 (rs2, kt2) (List.mem_cons_self _ _)
                  have hre2 : rs2 ≤ off + d := (List.chain'_cons.mp hch).1 hoffle hlt
                  exact ⟨hoffle, hlt2, hre2⟩
            · have hmem : r ∈ (mddAssignKeys fp c d ty off rest).1 := by
                rw [hrec]; exact hrm
              exact ih (fun k hk => hge k (List.mem_cons_of_mem _ hk))
                (List.pairwise_cons.mp hpw).2 (List.chain'_cons'.mp hch).2 r hmem

/-- Helper: the MDD record walk preserves the bounds invariant: every
record a successful walk adds to the accumulator satisfies the interval
bounds, provided the remaining keys are at or after the current offset,
strictly sorted, and block-aligned relative to the current offset. -/
theorem mddRecordLoop_bounds (C : Codecs) (bs : List Nat) (cb : Bool) :
    ∀ (infos : List (Nat × Nat)) (pos off : Nat) (keys : List (Nat × String))
      (sc : Nat) (tyV : Option Nat) (rbV : Option (List Nat))
      (acc recs : List IndexRecord) (sc' : Nat),
      (∀ k ∈ keys, off ≤ k.1) →
      List.Pairwise (fun a b => a.1 < b.1) keys →
      blockAligned keys infos off →
      mddRecordLoop C bs cb infos pos off keys sc tyV rbV acc = .ok (recs, sc') →
      ∀ r ∈ recs, r ∈ acc ∨
        (r.offset ≤ r.recordStart ∧ r.recordStart < r.recordEnd ∧
          r.recordEnd ≤ r.offset + r.decompressedSize) := by
  intro infos
  induction infos with
  | nil =>
      intro pos off keys sc tyV rbV acc recs sc' _ _ _ h r hr
      simp only [mddRecordLoop] at h
      obtain ⟨rfl, rfl⟩ := Prod.mk.inj (Except.ok.inj h)
      exact Or.inl hr
  | cons blk rest ih =>
      intro pos off keys sc tyV rbV acc recs sc' hge hpw hal h r hr
      obtain ⟨csize, dsize⟩ := blk
      simp only [mddRecordLoop] at h
      cases hbu : beU32 (pySlice (pySlice bs pos (pos + csize)) 4 8) with
      | none => rw [hbu] at h; exact Except.noConfusion h
      | some adlerVal =>
          rw [hbu] at h
          dsimp only at h
          cases hdp : recordBlockDispatch C cb ((pySlice bs pos (pos + csize)).take 4)
              ((pySlice bs pos (pos + csize)).drop 8) dsize tyV rbV with
          | fail e => rw [hdp] at h; exact Except.noConfusion h
          | breakLoop =>
              rw [hdp] at h
              dsimp only at h
              obtain ⟨rfl, rfl⟩ := Prod.mk.inj (Except.ok.inj h)
              exact Or.inl hr
          | proceed ty rb =>
              rw [hdp] at h
              dsimp only at h
              cases hck : recordBlockCheck cb adlerVal dsize rb with
              | error e => rw [hck] at h; exact Except.noConfusion h
              | ok u =>
                  rw [hck] at h
                  dsimp only at h
                  cases keys with
                  | nil =>
                      exact ih _ _ _ _ _ _ _ _ _ (by simp) (by simp)
                        (by intro j hj; simp) h r hr
                  | cons k krest =>
                      cases ty with
                      | none => exact Except.noConfusion h
                      | some tyv =>
                          dsimp only at h
                          cases hasg : mddAssignKeys pos csize dsize tyv off (k :: krest) with
                          | mk recsNew rem =>
                              rw [hasg] at h
                              dsimp only at h
                              obtain ⟨j, hjle, hrem, hlen, hmapN, hfieldsN, hchainN,
                                hlastN, hbreakN⟩ :=
                                mddAssignKeys_spec pos csize dsize tyv off
                                  (k :: krest) recsNew rem hasg
                              have hgeRem : ∀ k' ∈ rem, off + dsize ≤ k'.1 := by
                                intro k' hk'
                                rw [hrem] at hk'
                                cases hdj : (k :: krest).drop j with
                                | nil => rw [hdj] at hk'; simp at hk'
                                | cons h0 t0 =>
                                    rw [hdj] at hk'
                                    have hb := hbreakN h0 (by rw [hdj]; rfl)
                                    have h0ge : off + dsize ≤ h0.1 := by omega
                                    rcases List.mem_cons.mp hk' with rfl | hmem
                                    · exact h0ge
                                    · have hpwd : List.Pairwise
                                          (fun a b => a.1 < b.1) (h0 :: t0) := by
                                        rw [← hdj]
                                        exact hpw.sublist (List.drop_sublist _ _)
                                      have := (List.pairwise_cons.mp hpwd).1 k' hmem
                                      omega
                              have hpwRem : List.Pairwise (fun a b => a.1 < b.1) rem := by
                                rw [hrem]
                                exact hpw.sublist (List.drop_sublist _ _)
                              have halRem : blockAligned rem rest (off + dsize) := by
                                intro j' hj'
                                have hfull := hal (j' + 1) (by simpa using Nat.succ_lt_succ hj')
                                have hdropped := (hfull.drop j)
                                rw [← hrem] at hdropped
                                refine hdropped.imp ?_
                                intro a b hab
                                simp only [List.take_succ_cons, List.map_cons,
                                  List.sum_cons, List.getD_cons_succ] at hab
                                intro ha1 ha2
                                have := hab (by omega) (by omega)
                                omega
                              have hres := ih _ _ _ _ _ _ _ _ _ hgeRem hpwRem halRem h r hr
                              rcases hres with hmem | hb
                              · rcases List.mem_append.mp hmem with ha | hn
                                · exact Or.inl ha
                                · right
                                  have hch0 : List.Chain'
                                      (fun a b => off ≤ a.1 → a.1 < off + dsize →
                                        b.1 ≤ off + dsize) (k :: krest) := by
                                    have := hal 0 (by simp)
                                    refine this.imp ?_
                                    intro a b hab
                                    simp only [List.take_zero, List.map_nil,
                                      List.sum_nil, Nat.add_zero, List.getD_cons_zero] at hab
                                    exact hab
                                  exact mddAssignKeys_bounds pos csize dsize tyv off
                                    (k :: krest) hge hpw hch0 r (by rw [hasg]; exact hn)
                              · exact Or.inr hb

/-- C2 amended: for every archive whose key list is strictly increasing
in `record_offset` and block-aligned with the record-block boundaries
(`blockAligned`), every index record emitted by a successful `get_index`
(MDD or MDX) satisfies `offset ≤ record_start < record_end ≤ offset +
decompressed_size`.  Without those well-formedness hypotheses the code
violates the invariant (`index_bounds_cex`). -/
theorem index_bounds_sorted_aligned :
    (∀ (C : Codecs) (st : MState) (cb : Bool) (recs : List IndexRecord),
        mddGetIndex C st cb = .ok recs →
        strictSorted st.keyList →
        blockAligned st.keyList (recordInfoOf st) 0 →
        ∀ r ∈ recs, r.offset ≤ r.recordStart ∧ r.recordStart < r.recordEnd ∧
          r.recordEnd ≤ r.offset + r.decompressedSize) ∧
    (∀ (C : Codecs) (st : MState) (cb : Bool) (recs : List IndexRecord) (m : MXMeta),
        mdxGetIndex C st cb = .ok (recs, m) →
        strictSorted st.keyList →
        blockAligned st.keyList (recordInfoOf st) 0 →
        ∀ r ∈ recs, r.offset ≤ r.recordStart ∧ r.recordStart < r.recordEnd ∧
          r.recordEnd ≤ r.offset + r.decompressedSize) := by
  have main : ∀ (C : Codecs) (st : MState) (cb : Bool) (sec : RecSection)
      (recs : List IndexRecord) (sc' : Nat),
      parseRecordSection st = .ok sec →
      mddRecordLoop C st.recordBytes cb sec.infoList sec.dataPos 0 st.keyList 0
        none none [] = .ok (recs, sc') →
      strictSorted st.keyList →
      blockAligned st.keyList (recordInfoOf st) 0 →
      ∀ r ∈ recs, r.offset ≤ r.recordStart ∧ r.recordStart < r.recordEnd ∧
        r.recordEnd ≤ r.offset + r.decompressedSize := by
    intro C st cb sec recs sc' hp hl hsorted hal r hr
    have hinfo : recordInfoOf st = sec.infoList := by
      unfold recordInfoOf; rw [hp]
    rw [hinfo] at hal
    have := mddRecordLoop_bounds C st.recordBytes cb sec.infoList sec.dataPos 0
      st.keyList 0 none none [] recs sc' (fun k _ => Nat.zero_le _) hsorted hal hl r hr
    rcases this with hmem | hb
    · simp at hmem
    · exact hb
  constructor
  · intro C st cb recs h hsorted hal
    unfold mddGetIndex at h
    cases hp : parseRecordSection st with
    | error e => rw [hp] at h; exact Except.noConfusion h
    | ok sec =>
        rw [hp] at h
        dsimp only at h
        cases hl : mddRecordLoop C st.recordBytes cb sec.infoList sec.dataPos 0
            st.keyList 0 none none [] with
        | error e => rw [hl] at h; exact Except.noConfusion h
        | ok p =>
            rw [hl] at h
            obtain ⟨recs', sc⟩ := p
            by_cases hsc : sc = sec.recordBlockSize
            · simp only [hsc, if_pos rfl] at h
              cases Except.ok.inj h
              exact main C st cb sec _ sc hp hl hsorted hal
            · simp only [if_neg hsc] at h
              exact Except.noConfusion h
  · intro C st cb recs m h hsorted hal
    unfold mdxGetIndex at h
    cases hp : parseRecordSection st with
    | error e => rw [hp] at h; exact Except.noConfusion h
    | ok sec =>
        rw [hp] at h
        dsimp only at h
        rw [mdxRecordLoop_eq_mdd] at h
        cases hl : mddRecordLoop C st.recordBytes cb sec.infoList sec.dataPos 0
            st.keyList 0 none none [] with
        | error e => rw [hl] at h; exact Except.noConfusion h
        | ok p =>
            rw [hl] at h
            obtain ⟨recs', sc⟩ := p
            dsimp only at h
            obtain ⟨hre, hme⟩ := Prod.mk.inj (Except.ok.inj h)
            cases hre
            exact main C st cb sec _ sc hp hl hsorted hal

/-- Witness for `index_bounds_sorted_aligned` at the well-formed state
`st1` (sorted, aligned). -/
theorem index_bounds_witness :
    mddGetIndex noCodecs st1 true = Except.ok recs1 ∧ strictSorted st1.keyList ∧
      blockAligned st1.keyList (recordInfoOf st1) 0 ∧
      ∀ r ∈ recs1, r.offset ≤ r.recordStart ∧ r.recordStart < r.recordEnd ∧
        r.recordEnd ≤ r.offset + r.decompressedSize :=
  ⟨by decide, by decide, by decide,
    index_bounds_sorted_aligned.1 noCodecs st1 true recs1 (by decide) (by decide)
      (by decide)⟩

end Mdict
